import Mathlib

/-!
Verification of the blockchain consensus core of `blockchain-p2p`.

The development shallowly embeds the hashing / proof-of-work subsystem
(`hash_utils.rs`) and the chain engine (`app.rs`).  Rust strings are
modelled as Lean `String` (block fields) or `List Char` (intermediate
text); byte vectors as `List Nat` with every element below 256; `u64` as
`Nat`; `i64` as `Int`.  Functions that can panic or return `Result`
errors are modelled with `Except String`, the panic carrying the
`expect` message.  SHA-256 is embedded as an executable pure function so
that every theorem can be evaluated on concrete blocks.
-/

set_option maxRecDepth 20000

/-- One 32-bit right rotation, on naturals below 2^32. -/
def rotr32 (n x : Nat) : Nat := ((x >>> n) ||| (x <<< (32 - n))) &&& 0xffffffff

/-- SHA-256 small sigma 0. -/
def ssig0 (x : Nat) : Nat := (rotr32 7 x) ^^^ (rotr32 18 x) ^^^ (x >>> 3)

/-- SHA-256 small sigma 1. -/
def ssig1 (x : Nat) : Nat := (rotr32 17 x) ^^^ (rotr32 19 x) ^^^ (x >>> 10)

/-- SHA-256 big sigma 0. -/
def bsig0 (x : Nat) : Nat := (rotr32 2 x) ^^^ (rotr32 13 x) ^^^ (rotr32 22 x)

/-- SHA-256 big sigma 1. -/
def bsig1 (x : Nat) : Nat := (rotr32 6 x) ^^^ (rotr32 11 x) ^^^ (rotr32 25 x)

/-- SHA-256 choice function. -/
def shaCh (x y z : Nat) : Nat := (x &&& y) ^^^ ((x ^^^ 0xffffffff) &&& z)

/-- SHA-256 majority function. -/
def shaMaj (x y z : Nat) : Nat := (x &&& y) ^^^ (x &&& z) ^^^ (y &&& z)

/-- The 64 SHA-256 round constants, in decimal. -/
def sha_k : List Nat :=
  [1116352408, 1899447441, 3049323471, 3921009573, 961987163,
   1508970993, 2453635748, 2870763221, 3624381080, 310598401,
   607225278, 1426881987, 1925078388, 2162078206, 2614888103,
   3248222580, 3835390401, 4022224774, 264347078, 604807628,
   770255983, 1249150122, 1555081692, 1996064986, 2554220882,
   2821834349, 2952996808, 3210313671, 3336571891, 3584528711,
   113926993, 338241895, 666307205, 773529912, 1294757372,
   1396182291, 1695183700, 1986661051, 2177026350, 2456956037,
   2730485921, 2820302411, 3259730800, 3345764771, 3516065817,
   3600352804, 4094571909, 275423344, 430227734, 506948616,
   659060556, 883997877, 958139571, 1322822218, 1537002063,
   1747873779, 1955562222, 2024104815, 2227730452, 2361852424,
   2428436474, 2756734187, 3204031479, 3329325298]

/-- The SHA-256 initial state, in decimal. -/
def sha_h0 : List Nat :=
  [1779033703, 3144134277, 1013904242, 2773480762, 1359893119,
   2600822924, 528734635, 1541459225]

/-- Big-endian 4-byte rendering of a 32-bit word. -/
def be32 (n : Nat) : List Nat :=
  [(n >>> 24) &&& 0xff, (n >>> 16) &&& 0xff, (n >>> 8) &&& 0xff, n &&& 0xff]

/-- Big-endian 8-byte rendering of a 64-bit length field. -/
def be64 (n : Nat) : List Nat :=
  [(n >>> 56) &&& 0xff, (n >>> 48) &&& 0xff, (n >>> 40) &&& 0xff, (n >>> 32) &&& 0xff,
   (n >>> 24) &&& 0xff, (n >>> 16) &&& 0xff, (n >>> 8) &&& 0xff, n &&& 0xff]

/-- SHA-256 padding: append 0x80, zeros, and the 64-bit message bit length,
reaching a multiple of 64 bytes. -/
def sha_pad (msg : List Nat) : List Nat :=
  msg ++ 0x80 :: List.replicate ((64 - (msg.length + 9) % 64) % 64) 0 ++ be64 (8 * msg.length)

/-- The `i`-th big-endian 32-bit word of a 64-byte block. -/
def be_word (bs : List Nat) (i : Nat) : Nat :=
  bs.getD (4 * i) 0 * 0x1000000 + bs.getD (4 * i + 1) 0 * 0x10000 +
    bs.getD (4 * i + 2) 0 * 0x100 + bs.getD (4 * i + 3) 0

/-- The 64-entry SHA-256 message schedule of one 64-byte block. -/
def sha_schedule (block : List Nat) : List Nat :=
  (List.range 64).foldl
    (fun w i =>
      if i < 16 then w ++ [be_word block i]
      else
        w ++ [(w.getD (i - 16) 0 + ssig0 (w.getD (i - 15) 0) + w.getD (i - 7) 0 +
                ssig1 (w.getD (i - 2) 0)) % 0x100000000])
    []

/-- One SHA-256 compression round on the eight-word working state. -/
def sha_round (st : List Nat) (k w : Nat) : List Nat :=
  match st with
  | [a, b, c, d, e, f, g, h] =>
    let t1 := (h + bsig1 e + shaCh e f g + k + w) % 0x100000000
    let t2 := (bsig0 a + shaMaj a b c) % 0x100000000
    [(t1 + t2) % 0x100000000, a, b, c, (d + t1) % 0x100000000, e, f, g]
  | other => other

/-- SHA-256 compression of one 64-byte block into the running state. -/
def sha_compress (h : List Nat) (block : List Nat) : List Nat :=
  let ws := sha_schedule block
  let st := (List.range 64).foldl (fun st i => sha_round st (sha_k.getD i 0) (ws.getD i 0)) h
  List.zipWith (fun a b => (a + b) % 0x100000000) h st

/-- SHA-256 of a byte list, as the 32-byte digest. -/
def sha256 (msg : List Nat) : List Nat :=
  let padded := sha_pad msg
  let final := (List.range (padded.length / 64)).foldl
    (fun h i => sha_compress h ((padded.drop (64 * i)).take 64)) sha_h0
  final.flatMap be32

/-- UTF-8 encoding of one Unicode scalar value. -/
def utf8_char (c : Char) : List Nat :=
  let n := c.toNat
  if n < 0x80 then [n]
  else if n < 0x800 then [0xc0 ||| (n >>> 6), 0x80 ||| (n &&& 0x3f)]
  else if n < 0x10000 then
    [0xe0 ||| (n >>> 12), 0x80 ||| ((n >>> 6) &&& 0x3f), 0x80 ||| (n &&& 0x3f)]
  else
    [0xf0 ||| (n >>> 18), 0x80 ||| ((n >>> 12) &&& 0x3f), 0x80 ||| ((n >>> 6) &&& 0x3f),
     0x80 ||| (n &&& 0x3f)]

/-- UTF-8 encoding of a character list. -/
def utf8_encode (cs : List Char) : List Nat := cs.flatMap utf8_char

/-- Lowercase hexadecimal digit for a value below 16, as used by `hex::encode`. -/
def hexDigitCh (n : Nat) : Char := if n < 10 then Char.ofNat (48 + n) else Char.ofNat (87 + n)

/-- Model of `hex::encode`: lowercase, two digits per byte. -/
def hexEncode (bytes : List Nat) : String :=
  String.mk (bytes.flatMap (fun b => [hexDigitCh (b / 16), hexDigitCh (b % 16)]))

/-- Value of one hexadecimal digit, case-insensitive, `none` on other characters. -/
def hexVal (c : Char) : Option Nat :=
  if 48 ≤ c.toNat ∧ c.toNat ≤ 57 then some (c.toNat - 48)
  else if 97 ≤ c.toNat ∧ c.toNat ≤ 102 then some (c.toNat - 87)
  else if 65 ≤ c.toNat ∧ c.toNat ≤ 70 then some (c.toNat - 55)
  else none

/-- Model of `hex::decode` on the character list: fails on odd length or a
non-hexadecimal character. -/
def hexDecodeAux : List Char → Option (List Nat)
  | [] => some []
  | [_] => none
  | a :: b :: rest =>
    match hexVal a, hexVal b, hexDecodeAux rest with
    | some hi, some lo, some tail => some ((16 * hi + lo) :: tail)
    | _, _, _ => none

/-- Model of `hex::decode` on a string. -/
def hexDecode (s : String) : Option (List Nat) := hexDecodeAux s.data

/-- JSON escaping of one character, as the serde_json serializer performs it:
quote and backslash get a backslash escape, the named control characters get
their short escapes, every other control character below 0x20 becomes a
lowercase `\u00xx` escape, and all other characters pass through. -/
def json_escape (c : Char) : List Char :=
  if c = '"' then ['\\', '"']
  else if c = '\\' then ['\\', '\\']
  else if c.toNat = 8 then ['\\', 'b']
  else if c.toNat = 9 then ['\\', 't']
  else if c.toNat = 10 then ['\\', 'n']
  else if c.toNat = 12 then ['\\', 'f']
  else if c.toNat = 13 then ['\\', 'r']
  else if c.toNat < 32 then
    ['\\', 'u', '0', '0', hexDigitCh (c.toNat / 16), hexDigitCh (c.toNat % 16)]
  else [c]

/-- A JSON string literal: the escaped contents between two quotes. -/
def json_string (s : String) : List Char := '"' :: s.data.flatMap json_escape ++ ['"']

/-- Decimal digit accumulator, least significant digit first into `acc`; the
fuel dominates the digit count so the recursion is structural. -/
def decCharsCore : Nat → Nat → List Char → List Char
  | 0, _, acc => acc
  | fuel + 1, n, acc =>
    if n < 10 then Char.ofNat (48 + n % 10) :: acc
    else decCharsCore fuel (n / 10) (Char.ofNat (48 + n % 10) :: acc)

/-- Decimal rendering of a natural number, `0` rendered as the single digit 0. -/
def decChars (n : Nat) : List Char := decCharsCore (n + 1) n []

/-- Decimal rendering of a signed 64-bit integer: a minus sign for negatives. -/
def intDecChars (i : Int) : List Char :=
  if i < 0 then '-' :: decChars i.natAbs else decChars i.natAbs

/-- A scalar JSON value of the kinds `calculate_hash` serializes. -/
inductive JVal where
  | junum (n : Nat)
  | jnum (i : Int)
  | jstr (s : String)

/-- Compact rendering of a scalar JSON value. -/
def renderVal : JVal → List Char
  | .junum n => decChars n
  | .jnum i => intDecChars i
  | .jstr s => json_string s

/-- Comma-separated concatenation of rendered fragments. -/
def joinComma : List (List Char) → List Char
  | [] => []
  | [x] => x
  | x :: y :: rest => x ++ ',' :: joinComma (y :: rest)

/-- Compact rendering of a flat JSON object from its field list, in field-list
order: no whitespace, quoted keys, `key:value` pairs separated by commas. -/
def renderObj (fields : List (String × JVal)) : List Char :=
  '\x7b' :: joinComma (fields.map (fun kv => json_string kv.1 ++ ':' :: renderVal kv.2)) ++ ['\x7d']

/-- Model of `calculate_hash` (src/hash_utils.rs): serialize the canonical
object holding the five block fields and take the SHA-256 digest of the UTF-8
bytes of the serialized text.  Modelled from the spec: the crate manifest
that selects serde_json's key-ordering behaviour is not part of `src/`, so
the field order of the serialized object follows the spec's canonical order
`id, previous_hash, data, timestamp, nonce`. -/
def calculate_hash (id : Nat) (timestamp : Int) (previous_hash data : String) (nonce : Nat) :
    List Nat :=
  sha256 (utf8_encode (renderObj
    [("id", .junum id), ("previous_hash", .jstr previous_hash), ("data", .jstr data),
     ("timestamp", .jnum timestamp), ("nonce", .junum nonce)]))

/-- Binary digit accumulator, least significant digit first into `acc`; the
fuel dominates the digit count so the recursion is structural. -/
def binCharsCore : Nat → Nat → List Char → List Char
  | 0, _, acc => acc
  | fuel + 1, n, acc =>
    if n < 2 then (if n % 2 = 1 then '1' else '0') :: acc
    else binCharsCore fuel (n / 2) ((if n % 2 = 1 then '1' else '0') :: acc)

/-- Rust's `format` with the binary specifier on a byte: unpadded binary
digits, most significant first, the byte 0 rendered as the single digit 0. -/
def binChars (n : Nat) : List Char := binCharsCore (n + 1) n []

/-- Model of the constant holding the required difficulty prefix. -/
def DIFFICULTY_PREFIX : List Char := ['0', '0']

/-- Model of `hash_to_binary` (src/hash_utils.rs): concatenate the unpadded
binary renderings of the digest's bytes in byte order. -/
def hash_to_binary (hash : List Nat) : List Char :=
  hash.foldl (fun res c => res ++ binChars c) []

/-- The difficulty predicate the source applies to a digest: its binary
rendering starts with the difficulty prefix. -/
def meetsDifficulty (hash : List Nat) : Bool :=
  List.isPrefixOf DIFFICULTY_PREFIX (hash_to_binary hash)

/-- The mining loop of `mine_block` (src/hash_utils.rs) with explicit fuel:
from the given nonce, return the first nonce whose digest meets the
difficulty, paired with the digest's hex encoding. -/
def mine_loop (id : Nat) (timestamp : Int) (previous_hash data : String) :
    Nat → Nat → Option (Nat × String)
  | 0, _ => none
  | fuel + 1, nonce =>
    let hash := calculate_hash id timestamp previous_hash data nonce
    if meetsDifficulty hash then some (nonce, hexEncode hash)
    else mine_loop id timestamp previous_hash data fuel (nonce + 1)

/-- Model of `mine_block` (src/hash_utils.rs): the mining loop started at
nonce 0.  The Rust loop is unbounded; the fuel bounds the number of nonces
inspected, and `none` models a search that has not yet terminated. -/
def mine_block (id : Nat) (timestamp : Int) (previous_hash data : String) (fuel : Nat) :
    Option (Nat × String) :=
  mine_loop id timestamp previous_hash data fuel 0

/-- Modelled from the spec: the `Block` record of `src/block.rs`, which is
declared in `main.rs` but absent from `src/`; its fields follow the spec's
data model and every use in `app.rs`. -/
structure Block where
  id : Nat
  timestamp : Int
  previous_hash : String
  data : String
  nonce : Nat
  hash : String
  deriving DecidableEq, Repr

/-- The chain engine state: the owned chain, as in `App` of src/app.rs. -/
structure App where
  blocks : List Block
  deriving DecidableEq, Repr

/-- Model of `App::new`: the empty chain. -/
def App.new : App := ⟨[]⟩

/-- The fixed genesis block pushed by `App::genesis`, parameterized by the
timestamp captured at call time. -/
def genesisBlock (now : Int) : Block :=
  { id := 0, timestamp := now, previous_hash := "genesis", data := "genesis!", nonce := 2836,
    hash := "0000f816a87f806bb0073dcf026a64fb40c946b5abee2573702828694d5b4c43" }

/-- Model of `App::genesis` (src/app.rs): push the fixed genesis block. -/
def genesis (now : Int) (app : App) : App := ⟨app.blocks ++ [genesisBlock now]⟩

/-- Model of `App::is_block_valid` (src/app.rs).  The three checks run in
source order with early return; the panic of the `expect` on a failed hex
decode is modelled as the `Except` error carrying the panic message. -/
def is_block_valid (block previous : Block) : Except String Bool :=
  if block.previous_hash ≠ previous.hash then .ok false
  else
    match hexDecode block.hash with
    | none => .error "Hash decoding error"
    | some decoded =>
      if ¬ (meetsDifficulty decoded = true) then .ok false
      else if hexEncode (calculate_hash block.id block.timestamp block.previous_hash block.data
          block.nonce) ≠ block.hash then .ok false
      else .ok true

/-- The indexed loop body of `App::is_chain_valid`: visit each listed index,
skip index 0, fetch the pair at `i - 1` and `i` (the `ok_or` failure kept as
an error), and stop at the first invalid pair. -/
def chain_valid_loop (chain : List Block) : List Nat → Except String Bool
  | [] => .ok true
  | i :: rest =>
    if i = 0 then chain_valid_loop chain rest
    else
      match chain[i - 1]? with
      | none => .error "Could not get first block of pair on analysed chain"
      | some first =>
        match chain[i]? with
        | none => .error "Could not get second block of pair on analysed chain"
        | some second =>
          match is_block_valid second first with
          | .error e => .error e
          | .ok b => if b then chain_valid_loop chain rest else .ok false

/-- Model of `App::is_chain_valid` (src/app.rs): the loop over all indices of
the chain. -/
def is_chain_valid (chain : List Block) : Except String Bool :=
  chain_valid_loop chain (List.range chain.length)

/-- Model of `App::add_block` (src/app.rs): fail when the chain has no last
block, validate against the last block, push on success, otherwise leave the
chain as it was and report the failure. -/
def add_block (app : App) (block : Block) : App × Except String Unit :=
  match app.blocks.getLast? with
  | none => (app, .error "There is not initial block")
  | some latest =>
    match is_block_valid block latest with
    | .error e => (app, .error e)
    | .ok true => (⟨app.blocks ++ [block]⟩, .ok ())
    | .ok false => (app, .error "Could not add block: invalid")

/-- Model of `App::choose_chain` (src/app.rs): validate both chains, prefer
the longer when both are valid with the local chain winning ties, pick the
single valid one otherwise, and fail when neither is valid.  The state is
returned unchanged, as the source never touches `self.blocks`. -/
def choose_chain (app : App) (local_chain remote_chain : List Block) :
    App × Except String (List Block) :=
  (app,
    match is_chain_valid local_chain with
    | .error e => .error e
    | .ok local_valid =>
      match is_chain_valid remote_chain with
      | .error e => .error e
      | .ok remote_valid =>
        if local_valid && remote_valid then
          if remote_chain.length ≤ local_chain.length then .ok local_chain
          else .ok remote_chain
        else if remote_valid && !local_valid then .ok remote_chain
        else if !remote_valid && local_valid then .ok local_chain
        else .error "Both local and remote chains are invalid!")

/-- A concrete block whose digest at nonce 0 meets the difficulty: the hash
field holds the hex encoding of its recomputed digest. -/
def wBlock : Block :=
  { id := 0, timestamp := 0, previous_hash := "p", data := "w106501", nonce := 0,
    hash := "00003c4b92fef11cd80503ab4c77f35fe560dddc53a2a9deb6d44e9b9d38a879" }

/-- A concrete predecessor for `wBlock`: its hash field is the linkage target
`"p"`, and its id and timestamp are unrelated to `wBlock`'s. -/
def wPrev : Block :=
  { id := 5, timestamp := 100, previous_hash := "x", data := "prev", nonce := 7, hash := "p" }

/-- A concrete block whose hash field is not valid hex but whose linkage
against `wPrev` passes. -/
def badHexBlock : Block :=
  { id := 1, timestamp := 0, previous_hash := "p", data := "d", nonce := 0, hash := "zz" }

/-- C9: `chooseChain` never mutates the engine's owned chain: whether it
returns a selected chain or fails, the stored block sequence after the call
equals its value before the call. -/
theorem choose_chain_preserves_state (app : App) (local_chain remote_chain : List Block) :
    (choose_chain app local_chain remote_chain).1 = app := rfl

/-- C5: on a candidate whose stored hash is not valid hex and whose linkage
check passes, validation stops with the decode failure, an outcome distinct
from every validation verdict. -/
theorem is_block_valid_decode_failure (block previous : Block)
    (hdec : hexDecode block.hash = none) (hlink : block.previous_hash = previous.hash) :
    is_block_valid block previous = .error "Hash decoding error" ∧
    ∀ b : Bool, is_block_valid block previous ≠ .ok b := by
  have heq : is_block_valid block previous = .error "Hash decoding error" := by
    unfold is_block_valid
    rw [if_neg (by simp [hlink]), hdec]
  exact ⟨heq, fun b => by simp [heq]⟩

/-- Witness for C5 at a concrete malformed block. -/
theorem is_block_valid_decode_failure_witness :
    is_block_valid badHexBlock wPrev = .error "Hash decoding error" ∧
    ∀ b : Bool, is_block_valid badHexBlock wPrev ≠ .ok b :=
  is_block_valid_decode_failure badHexBlock wPrev rfl rfl

/-- C7: `addBlock` fails on an empty chain leaving it empty, appends exactly
when the candidate validates against the current last block, and leaves the
chain unchanged on every failure. -/
theorem add_block_rule (app : App) (block : Block) :
    (app.blocks = [] →
      add_block app block = (app, .error "There is not initial block") ∧
      (add_block app block).1.blocks = []) ∧
    (∀ latest, app.blocks.getLast? = some latest →
      (is_block_valid block latest = .ok true →
        add_block app block = (⟨app.blocks ++ [block]⟩, .ok ())) ∧
      (is_block_valid block latest = .ok false →
        add_block app block = (app, .error "Could not add block: invalid")) ∧
      (∀ e, is_block_valid block latest = .error e →
        add_block app block = (app, .error e))) := by
  constructor
  · intro hnil
    have hlast : app.blocks.getLast? = none := by rw [hnil]; rfl
    have heq : add_block app block = (app, .error "There is not initial block") := by
      unfold add_block; rw [hlast]
    exact ⟨heq, by rw [heq, hnil]⟩
  · intro latest hlast
    refine ⟨fun hv => ?_, fun hv => ?_, fun e hv => ?_⟩ <;>
      simp [add_block, hlast, hv]

/-- Witness for C7 at the empty chain. -/
theorem add_block_rule_witness :
    add_block App.new badHexBlock = (App.new, .error "There is not initial block") ∧
    (add_block App.new badHexBlock).1.blocks = [] :=
  (add_block_rule App.new badHexBlock).1 rfl

/-- C1: the fork-choice rule: when both chains are valid the longer wins and
the local chain wins ties; with exactly one valid chain that chain wins; with
neither valid the call fails with the consensus failure. -/
theorem choose_chain_rule (app : App) (local_chain remote_chain : List Block) (lv rv : Bool)
    (hl : is_chain_valid local_chain = .ok lv) (hr : is_chain_valid remote_chain = .ok rv) :
    (lv = true → rv = true → remote_chain.length ≤ local_chain.length →
      (choose_chain app local_chain remote_chain).2 = .ok local_chain) ∧
    (lv = true → rv = true → local_chain.length < remote_chain.length →
      (choose_chain app local_chain remote_chain).2 = .ok remote_chain) ∧
    (lv = true → rv = false →
      (choose_chain app local_chain remote_chain).2 = .ok local_chain) ∧
    (lv = false → rv = true →
      (choose_chain app local_chain remote_chain).2 = .ok remote_chain) ∧
    (lv = false → rv = false →
      (choose_chain app local_chain remote_chain).2 =
        .error "Both local and remote chains are invalid!") := by
  refine ⟨?_, ?_, ?_, ?_, ?_⟩ <;> rintro rfl rfl
  · intro hle
    simp [choose_chain, hl, hr, hle]
  · intro hlt
    simp [choose_chain, hl, hr, Nat.not_le.mpr hlt]
  · simp [choose_chain, hl, hr]
  · simp [choose_chain, hl, hr]
  · simp [choose_chain, hl, hr]

/-- Witness for C1: two empty valid chains of equal length, the local chain
selected. -/
theorem choose_chain_rule_witness :
    (choose_chain App.new [] []).2 = .ok [] :=
  (choose_chain_rule App.new [] [] true true rfl rfl).1 rfl rfl (Nat.le_refl 0)

/-- The mining loop invariant: a successful search that started at `start`
returns the first satisfying nonce at or after `start`, paired with the hex
encoding of its digest. -/
theorem mine_loop_spec (id : Nat) (t : Int) (ph d : String) :
    ∀ fuel start n h, mine_loop id t ph d fuel start = some (n, h) →
      start ≤ n ∧ meetsDifficulty (calculate_hash id t ph d n) = true ∧
      (∀ m, start ≤ m → m < n → meetsDifficulty (calculate_hash id t ph d m) = false) ∧
      h = hexEncode (calculate_hash id t ph d n) := by
  intro fuel
  induction fuel with
  | zero => intro start n h hm; simp [mine_loop] at hm
  | succ k ih =>
    intro start n h hm
    by_cases hd : meetsDifficulty (calculate_hash id t ph d start) = true
    · rw [mine_loop, if_pos hd] at hm
      obtain ⟨rfl, rfl⟩ : start = n ∧ hexEncode (calculate_hash id t ph d start) = h := by
        simpa using hm
      exact ⟨Nat.le_refl _, hd, fun m h1 h2 => absurd h1 (by omega), rfl⟩
    · rw [mine_loop, if_neg hd] at hm
      obtain ⟨hle, h1, h2, h3⟩ := ih (start + 1) n h hm
      refine ⟨by omega, h1, fun m hm1 hm2 => ?_, h3⟩
      rcases Nat.eq_or_lt_of_le hm1 with heq | hlt
      · rw [← heq]; exact Bool.eq_false_iff.mpr hd
      · exact h2 m hlt hm2

/-- C2: a successful `mine` returns the first nonce from 0 whose digest meets
the difficulty, together with the hex encoding of that digest. -/
theorem mine_block_spec (id : Nat) (t : Int) (ph d : String) (fuel n : Nat) (h : String)
    (hm : mine_block id t ph d fuel = some (n, h)) :
    meetsDifficulty (calculate_hash id t ph d n) = true ∧
    (∀ m, m < n → meetsDifficulty (calculate_hash id t ph d m) = false) ∧
    h = hexEncode (calculate_hash id t ph d n) := by
  obtain ⟨-, h1, h2, h3⟩ := mine_loop_spec id t ph d fuel 0 n h hm
  exact ⟨h1, fun m hlt => h2 m (Nat.zero_le m) hlt, h3⟩

/-- C3: the digest serializes the canonical object with keys in the fixed
order id, previous_hash, data, timestamp, nonce — decimal integers, quoted
strings, and no whitespace — and hashes the UTF-8 bytes of that exact text
with SHA-256; identical inputs give identical output. -/
theorem calculate_hash_canonical (id : Nat) (t : Int) (ph d : String) (n : Nat) :
    (calculate_hash id t ph d n =
      sha256 (utf8_encode (
        ("\x7b\"id\":").data ++ (decChars id ++
        ((",\"previous_hash\":").data ++ (json_string ph ++
        ((",\"data\":").data ++ (json_string d ++
        ((",\"timestamp\":").data ++ (intDecChars t ++
        ((",\"nonce\":").data ++ (decChars n ++ ("\x7d").data)))))))))))) ∧
    (∀ id2 t2 ph2 d2 n2, id = id2 → t = t2 → ph = ph2 → d = d2 → n = n2 →
      calculate_hash id t ph d n = calculate_hash id2 t2 ph2 d2 n2) := by
  constructor
  · have hobj : renderObj
        [("id", .junum id), ("previous_hash", .jstr ph), ("data", .jstr d),
         ("timestamp", .jnum t), ("nonce", .junum n)] =
        ("\x7b\"id\":").data ++ (decChars id ++
        ((",\"previous_hash\":").data ++ (json_string ph ++
        ((",\"data\":").data ++ (json_string d ++
        ((",\"timestamp\":").data ++ (intDecChars t ++
        ((",\"nonce\":").data ++ (decChars n ++ ("\x7d").data))))))))) := by
      simp only [renderObj, List.map_cons, List.map_nil, renderVal, joinComma]
      rw [show json_string "id" = ['"', 'i', 'd', '"'] from rfl,
        show json_string "previous_hash" =
          ['"', 'p', 'r', 'e', 'v', 'i', 'o', 'u', 's', '_', 'h', 'a', 's', 'h', '"'] from rfl,
        show json_string "data" = ['"', 'd', 'a', 't', 'a', '"'] from rfl,
        show json_string "timestamp" =
          ['"', 't', 'i', 'm', 'e', 's', 't', 'a', 'm', 'p', '"'] from rfl,
        show json_string "nonce" = ['"', 'n', 'o', 'n', 'c', 'e', '"'] from rfl]
      simp [List.append_assoc]
    rw [show calculate_hash id t ph d n = sha256 (utf8_encode (renderObj
      [("id", .junum id), ("previous_hash", .jstr ph), ("data", .jstr d),
       ("timestamp", .jnum t), ("nonce", .junum n)])) from rfl, hobj]
  · rintro id2 t2 ph2 d2 n2 rfl rfl rfl rfl rfl
    rfl

/-- Witness for C3 at concrete field values. -/
theorem calculate_hash_canonical_witness :
    calculate_hash 0 0 "p" "w106501" 0 =
      sha256 (utf8_encode (
        ("\x7b\"id\":").data ++ (decChars 0 ++
        ((",\"previous_hash\":").data ++ (json_string "p" ++
        ((",\"data\":").data ++ (json_string "w106501" ++
        ((",\"timestamp\":").data ++ (intDecChars 0 ++
        ((",\"nonce\":").data ++ (decChars 0 ++ ("\x7d").data))))))))))) ∧
    calculate_hash 0 0 "p" "w106501" 0 = calculate_hash 0 0 "p" "w106501" 0 :=
  ⟨(calculate_hash_canonical 0 0 "p" "w106501" 0).1,
   (calculate_hash_canonical 0 0 "p" "w106501" 0).2 0 0 "p" "w106501" 0 rfl rfl rfl rfl rfl⟩

/-- Folding byte renderings onto an accumulator is the accumulator followed
by the flat concatenation of the renderings in byte order. -/
theorem hash_to_binary_foldl (l : List Nat) (acc : List Char) :
    l.foldl (fun res c => res ++ binChars c) acc = acc ++ l.flatMap binChars := by
  induction l generalizing acc with
  | nil => simp
  | cons a t ih => simp [List.foldl_cons, ih, List.flatMap_cons, List.append_assoc]

/-- The binary rendering of a positive number starts with the digit 1, for
any accumulator, as long as the fuel dominates the number. -/
theorem binCharsCore_pos_head (fuel : Nat) :
    ∀ n acc, 0 < n → n ≤ fuel → ∃ l, binCharsCore fuel n acc = '1' :: l := by
  induction fuel with
  | zero => intro n acc h1 h2; omega
  | succ k ih =>
    intro n acc h1 h2
    by_cases hlt : n < 2
    · have hn : n = 1 := by omega
      subst hn
      exact ⟨acc, by simp [binCharsCore]⟩
    · rw [binCharsCore, if_neg hlt]
      exact ih (n / 2) _ (by omega) (by omega)

/-- The unpadded binary rendering of a positive byte starts with the digit 1. -/
theorem binChars_pos_head (n : Nat) (h : 0 < n) : ∃ l, binChars n = '1' :: l :=
  binCharsCore_pos_head (n + 1) n [] h (by omega)

/-- C4: the difficulty check renders each byte in unpadded binary (byte 5 as
the three digits 101, byte 0 as the single digit 0), concatenates the
renderings in byte order, and passes exactly when the concatenation starts
with two zero digits, which for the unpadded rendering means exactly that the
first two bytes of the digest are zero. -/
theorem meetsDifficulty_characterization :
    (∀ hash : List Nat, hash_to_binary hash = hash.flatMap binChars) ∧
    binChars 5 = ['1', '0', '1'] ∧
    binChars 0 = ['0'] ∧
    (∀ hash : List Nat, meetsDifficulty hash = true ↔ ∃ rest, hash = 0 :: 0 :: rest) := by
  have hfold : ∀ hash : List Nat, hash_to_binary hash = hash.flatMap binChars :=
    fun hash => hash_to_binary_foldl hash []
  refine ⟨hfold, by decide, by decide, fun hash => ?_⟩
  rw [show meetsDifficulty hash = List.isPrefixOf ['0', '0'] (hash_to_binary hash) from rfl,
    hfold]
  cases hash with
  | nil => exact iff_of_false (by decide) (by rintro ⟨rest, hr⟩; exact List.noConfusion hr)
  | cons a t =>
    rcases Nat.eq_zero_or_pos a with rfl | ha
    · cases t with
      | nil => exact iff_of_false (by decide) (by rintro ⟨rest, hr⟩; simp at hr)
      | cons b t2 =>
        rcases Nat.eq_zero_or_pos b with rfl | hb
        · exact iff_of_true
            (by simp [List.flatMap_cons, List.isPrefixOf, show binChars 0 = ['0'] from rfl])
            ⟨t2, rfl⟩
        · obtain ⟨l, hl⟩ := binChars_pos_head b hb
          refine iff_of_false ?_ ?_
          · simp [List.flatMap_cons, hl, List.isPrefixOf,
              show binChars 0 = ['0'] from rfl]
          · rintro ⟨rest, hr⟩
            simp at hr
            omega
    · obtain ⟨l, hl⟩ := binChars_pos_head a ha
      refine iff_of_false ?_ ?_
      · simp [List.flatMap_cons, hl, List.isPrefixOf]
      · rintro ⟨rest, hr⟩
        simp at hr
        omega

/-- The decoded digest bytes of `wBlock`'s hash field. -/
def wDigest : List Nat :=
  [0x00, 0x00, 0x3c, 0x4b, 0x92, 0xfe, 0xf1, 0x1c, 0xd8, 0x05, 0x03, 0xab, 0x4c, 0x77, 0xf3, 0x5f,
   0xe5, 0x60, 0xdd, 0xdc, 0x53, 0xa2, 0xa9, 0xde, 0xb6, 0xd4, 0x4e, 0x9b, 0x9d, 0x38, 0xa8, 0x79]

/-- C6: block validation runs exactly the linkage, difficulty, and integrity
checks in that order, short-circuiting at the first failure, and accepts
exactly when all three pass. -/
theorem is_block_valid_checks (block previous : Block) :
    (block.previous_hash ≠ previous.hash → is_block_valid block previous = .ok false) ∧
    (∀ decoded, block.previous_hash = previous.hash → hexDecode block.hash = some decoded →
      meetsDifficulty decoded = false → is_block_valid block previous = .ok false) ∧
    (∀ decoded, block.previous_hash = previous.hash → hexDecode block.hash = some decoded →
      meetsDifficulty decoded = true →
      hexEncode (calculate_hash block.id block.timestamp block.previous_hash block.data
        block.nonce) ≠ block.hash →
      is_block_valid block previous = .ok false) ∧
    (is_block_valid block previous = .ok true ↔
      block.previous_hash = previous.hash ∧
      (∃ decoded, hexDecode block.hash = some decoded ∧ meetsDifficulty decoded = true) ∧
      hexEncode (calculate_hash block.id block.timestamp block.previous_hash block.data
        block.nonce) = block.hash) := by
  refine ⟨fun hlink => ?_, fun decoded hlink hdec hdiff => ?_,
    fun decoded hlink hdec hdiff hint => ?_, ?_, ?_⟩
  · rw [is_block_valid, if_pos hlink]
  · rw [is_block_valid, if_neg (by simp [hlink]), hdec]
    simp [hdiff]
  · rw [is_block_valid, if_neg (by simp [hlink]), hdec]
    simp [hdiff, hint]
  · intro hv
    by_cases hlink : block.previous_hash = previous.hash
    · rw [is_block_valid, if_neg (by simp [hlink])] at hv
      rcases hdec : hexDecode block.hash with - | decoded <;> rw [hdec] at hv
      · simp at hv
      · by_cases hdiff : meetsDifficulty decoded = true
        · by_cases hint : hexEncode (calculate_hash block.id block.timestamp
              block.previous_hash block.data block.nonce) = block.hash
          · exact ⟨hlink, ⟨decoded, rfl, hdiff⟩, hint⟩
          · simp [hdiff, hint] at hv
        · simp [hdiff] at hv
    · rw [is_block_valid, if_pos hlink] at hv
      simp at hv
  · rintro ⟨hlink, ⟨decoded, hdec, hdiff⟩, hint⟩
    rw [is_block_valid, if_neg (by simp [hlink]), hdec]
    simp [hdiff, hint]

/-- Witness for C6 at a concrete fully valid block. -/
theorem is_block_valid_checks_witness : is_block_valid wBlock wPrev = .ok true :=
  (is_block_valid_checks wBlock wPrev).2.2.2.2
    ⟨rfl, ⟨wDigest, by decide, by decide⟩, by decide⟩

/-- C10: validation imposes no constraint relating the candidate's id or
timestamp to the previous block: a candidate passing linkage, difficulty, and
integrity is accepted and appended even when its id is not the successor of
the previous id and its timestamp does not exceed the previous timestamp. -/
theorem no_id_timestamp_constraint (block previous : Block) (app : App)
    (hid : block.id ≠ previous.id + 1) (hts : block.timestamp ≤ previous.timestamp)
    (hlink : block.previous_hash = previous.hash)
    (decoded : List Nat) (hdec : hexDecode block.hash = some decoded)
    (hdiff : meetsDifficulty decoded = true)
    (hint : hexEncode (calculate_hash block.id block.timestamp block.previous_hash block.data
      block.nonce) = block.hash)
    (hlast : app.blocks.getLast? = some previous) :
    is_block_valid block previous = .ok true ∧
    add_block app block = (⟨app.blocks ++ [block]⟩, .ok ()) := by
  have hv : is_block_valid block previous = .ok true := by
    rw [is_block_valid, if_neg (by simp [hlink]), hdec]
    simp [hdiff, hint]
  exact ⟨hv, by simp [add_block, hlast, hv]⟩

/-- Witness for C10: `wBlock` has id 0 and timestamp 0 while its predecessor
has id 5 and timestamp 100, yet it validates and is appended. -/
theorem no_id_timestamp_constraint_witness :
    is_block_valid wBlock wPrev = .ok true ∧
    add_block ⟨[wPrev]⟩ wBlock = (⟨[wPrev] ++ [wBlock]⟩, .ok ()) :=
  no_id_timestamp_constraint wBlock wPrev ⟨[wPrev]⟩ (by decide) (by decide) rfl
    wDigest (by decide) (by decide) (by decide) rfl

/-- A chain loop that already succeeded on a first index list continues into
the appended indices. -/
theorem chain_valid_loop_append_ok (chain : List Block) (is js : List Nat)
    (h : chain_valid_loop chain is = .ok true) :
    chain_valid_loop chain (is ++ js) = chain_valid_loop chain js := by
  induction is with
  | nil => rfl
  | cons i rest ih =>
    by_cases h0 : i = 0
    · rw [List.cons_append]
      simp only [chain_valid_loop, if_pos h0] at h ⊢
      exact ih h
    · rw [List.cons_append]
      simp only [chain_valid_loop, if_neg h0] at h ⊢
      rcases h1 : chain[i - 1]? with - | first <;> simp only [h1] at h ⊢
      · exact absurd h (by simp)
      · rcases h2 : chain[i]? with - | second <;> simp only [h2] at h ⊢
        · exact absurd h (by simp)
        · rcases h3 : is_block_valid second first with e | b <;> simp only [h3] at h ⊢
          · exact absurd h (by simp)
          · cases b
            · exact absurd h (by simp)
            · rw [if_pos rfl] at h ⊢
              exact ih h

/-- Indices that lie strictly inside the original chain are unaffected by a
block appended at the end. -/
theorem chain_valid_loop_extend (bs : List Block) (b : Block) (is : List Nat)
    (hlt : ∀ i ∈ is, i < bs.length) :
    chain_valid_loop (bs ++ [b]) is = chain_valid_loop bs is := by
  induction is with
  | nil => rfl
  | cons i rest ih =>
    have hi : i < bs.length := hlt i (List.mem_cons_self i rest)
    have hrest : ∀ j ∈ rest, j < bs.length := fun j hj => hlt j (List.mem_cons_of_mem i hj)
    by_cases h0 : i = 0
    · simp only [chain_valid_loop, if_pos h0]
      exact ih hrest
    · simp only [chain_valid_loop, if_neg h0,
        List.getElem?_append_left (show i - 1 < bs.length by omega),
        List.getElem?_append_left hi]
      rcases h1 : bs[i - 1]? with - | first <;> simp only [h1]
      rcases h2 : bs[i]? with - | second <;> simp only [h2]
      rcases h3 : is_block_valid second first with e | b2 <;> simp only [h3]
      cases b2
      · rfl
      · rw [if_pos rfl, if_pos rfl]
        exact ih hrest

/-- A chain of length one is valid: the loop only meets the skipped index 0. -/
theorem is_chain_valid_singleton (b : Block) : is_chain_valid [b] = .ok true := by
  rw [is_chain_valid, show List.range ([b].length) = [0] from rfl, chain_valid_loop,
    if_pos rfl]
  rfl

/-- Appending a block that validates against the last block of a valid
non-empty chain keeps the chain valid. -/
theorem is_chain_valid_snoc (bs : List Block) (b latest : Block)
    (hlast : bs.getLast? = some latest) (hv : is_chain_valid bs = .ok true)
    (hb : is_block_valid b latest = .ok true) :
    is_chain_valid (bs ++ [b]) = .ok true := by
  have hne : bs ≠ [] := by
    intro hnil
    rw [hnil] at hlast
    exact Option.noConfusion hlast
  have hlen : 0 < bs.length := List.length_pos.mpr hne
  have hprev : (bs ++ [b])[bs.length - 1]? = some latest := by
    rw [List.getElem?_append_left (by omega), ← List.getLast?_eq_getElem?, hlast]
  have hok : chain_valid_loop (bs ++ [b]) (List.range bs.length) = .ok true := by
    rw [chain_valid_loop_extend bs b _ (fun i hi => List.mem_range.mp hi)]
    exact hv
  rw [is_chain_valid, show (bs ++ [b]).length = bs.length + 1 by simp,
    List.range_succ, chain_valid_loop_append_ok _ _ _ hok]
  simp only [chain_valid_loop, if_neg (show ¬bs.length = 0 by omega), hprev,
    List.getElem?_concat_length, hb]
  simp

/-- Chain engine states built by one `genesis` call on the empty engine
followed by any finite sequence of successful `addBlock` calls. -/
inductive Built : App → Prop
  | genesis_start (now : Int) : Built (genesis now App.new)
  | add (app : App) (b : Block) (app2 : App) (hb : Built app)
      (hadd : add_block app b = (app2, .ok ())) : Built app2

/-- Every built chain engine holds a non-empty chain that `isChainValid`
accepts. -/
theorem built_chain_valid (app : App) (h : Built app) :
    is_chain_valid app.blocks = .ok true ∧ app.blocks ≠ [] := by
  induction h with
  | genesis_start now =>
    exact ⟨is_chain_valid_singleton (genesisBlock now), by simp [genesis, App.new]⟩
  | add app b app2 hb hadd ih =>
    rw [add_block] at hadd
    rcases hlast : app.blocks.getLast? with - | latest <;> simp only [hlast] at hadd
    · exact absurd hadd (by simp)
    · rcases hbv : is_block_valid b latest with e | bv <;> simp only [hbv] at hadd
      · exact absurd hadd (by simp)
      · cases bv
        · exact absurd hadd (by simp)
        · have happ : app2.blocks = app.blocks ++ [b] := by
            have hfst := congrArg Prod.fst hadd
            simp at hfst
            rw [← hfst]
          rw [happ]
          exact ⟨is_chain_valid_snoc app.blocks b latest hlast ih.1 hbv, by simp⟩

/-- C8: a chain built by one `genesis` call on the empty engine followed by
any finite sequence of successful `addBlock` calls satisfies `isChainValid`;
in particular a single block is accepted unconditionally and every chain of
fewer than two blocks is valid. -/
theorem chain_validity_invariant :
    (∀ app, Built app → is_chain_valid app.blocks = .ok true) ∧
    (∀ b, is_chain_valid [b] = .ok true) ∧
    is_chain_valid [] = .ok true :=
  ⟨fun app h => (built_chain_valid app h).1, fun b => is_chain_valid_singleton b, rfl⟩

/-- Witness for C8 at the freshly created genesis chain. -/
theorem chain_validity_invariant_witness :
    is_chain_valid (genesis 0 App.new).blocks = .ok true :=
  chain_validity_invariant.1 (genesis 0 App.new) (Built.genesis_start 0)

/-- Witness for C2 at a concrete successful one-step mine. -/
theorem mine_block_spec_witness :
    meetsDifficulty (calculate_hash 0 0 "p" "w106501" 0) = true ∧
    (∀ m, m < 0 → meetsDifficulty (calculate_hash 0 0 "p" "w106501" m) = false) ∧
    "00003c4b92fef11cd80503ab4c77f35fe560dddc53a2a9deb6d44e9b9d38a879" =
      hexEncode (calculate_hash 0 0 "p" "w106501" 0) :=
  mine_block_spec 0 0 "p" "w106501" 1 0
    "00003c4b92fef11cd80503ab4c77f35fe560dddc53a2a9deb6d44e9b9d38a879" (by decide)
